import Mathlib

/-!
Verification of the feature-store / LSTM-predictor core of the ai-stock-tracker
backend (files `app/ml/feature_store.py`, `app/ml/improved_lstm.py`,
`app/ml/lstm_model.py`), as a shallow embedding in Lean 4.

Conventions of the embedding:
  * pandas DataFrames become association lists `List (String × List ℚ)`
    (column name → column values) or, where only one column matters, plain
    lists of numbers;
  * Python floats become `ℝ` where the code takes square roots, `ℚ` elsewhere;
  * raised exceptions become `Except` errors; the Python code raises
    `ValueError` with distinguishing messages, modelled by dedicated error
    values;
  * the recursive depth-first search of `_sort_features_by_dependencies` is
    modelled with a fuel parameter; `fuelExhausted` is an artifact of the
    embedding and is proved unreachable for the fuel the wrapper supplies.
-/

deriving instance DecidableEq for Except

namespace StockTracker

/-! ### Dependency resolver (`FeatureStore._sort_features_by_dependencies`)

The Python function keeps three pieces of state: `temp_visited` (set),
`visited` (set) and `sorted_features` (list).  `visit(feature)` raises
`ValueError("Circular dependency detected involving " + feature)` when the
feature is already temporarily visited, returns when already visited, and
otherwise recurses into the registered dependencies that are members of the
requested `feature_list`. -/

structure SortState where
  temp : List String
  visited : List String
  sorted : List String
deriving DecidableEq

inductive SortError where
  /-- Artifact of the fuel-based embedding; proved unreachable below. -/
  | fuelExhausted : SortError
  /-- Models `ValueError("Circular dependency detected involving " + feature)`. -/
  | circular (feature : String) : SortError
deriving DecidableEq

/-- Dependencies of a feature: `self.feature_definitions[feature].dependencies`
when the feature is registered, treated as the empty list otherwise (the
Python code guards the loop with `if feature in self.feature_definitions`). -/
def depsOf (defs : String → Option (List String)) (f : String) : List String :=
  (defs f).getD []

/-- The `for dependency in ...: if dependency in feature_list: visit(dependency)`
loop, parameterised by the `visit` of one fuel level below. -/
def visitDeps (step : SortState → String → Except SortError SortState)
    (L : List String) : SortState → List String → Except SortError SortState
  | s, [] => .ok s
  | s, d :: ds =>
    if d ∈ L then
      match step s d with
      | .error e => .error e
      | .ok s1 => visitDeps step L s1 ds
    else visitDeps step L s ds

/-- Body of `visit(feature)` given the recursive call for the next level. -/
def visitBody (defs : String → Option (List String)) (L : List String)
    (inner : SortState → String → Except SortError SortState)
    (s : SortState) (f : String) : Except SortError SortState :=
  if f ∈ s.temp then .error (.circular f)
  else if f ∈ s.visited then .ok s
  else
    match visitDeps inner L ⟨f :: s.temp, s.visited, s.sorted⟩ (depsOf defs f) with
    | .error e => .error e
    | .ok s2 => .ok ⟨s2.temp.erase f, f :: s2.visited, s2.sorted ++ [f]⟩

/-- `visit(feature)` with fuel (the Python recursion is unbounded; the wrapper
below supplies enough fuel for the exhaustion branch to be unreachable). -/
def visit (defs : String → Option (List String)) (L : List String) :
    Nat → SortState → String → Except SortError SortState
  | 0 => fun _ _ => .error .fuelExhausted
  | fuel + 1 => visitBody defs L (visit defs L fuel)

/-- The top-level `for feature in feature_list: if feature not in visited: visit(feature)`
loop (the membership test is subsumed by the one inside `visit`). -/
def visitAll (defs : String → Option (List String)) (L : List String) (fuel : Nat) :
    SortState → List String → Except SortError SortState
  | s, [] => .ok s
  | s, f :: fs =>
    match visit defs L fuel s f with
    | .error e => .error e
    | .ok s1 => visitAll defs L fuel s1 fs

/-- `FeatureStore._sort_features_by_dependencies(feature_list)`. -/
def sortFeaturesByDependencies (defs : String → Option (List String))
    (L : List String) : Except SortError (List String) :=
  match visitAll defs L (L.length + 1) ⟨[], [], []⟩ L with
  | .error e => .error e
  | .ok s => .ok s.sorted

/-- Dependency map of the default feature registry
(`FeatureStore._register_default_features`). -/
def defaultDeps : String → Option (List String) := fun f =>
  if f = "Returns" then some ["Close"]
  else if f = "Log_Returns" then some ["Close"]
  else if f = "SMA_10" then some ["Close"]
  else if f = "SMA_20" then some ["Close"]
  else if f = "EMA_12" then some ["Close"]
  else if f = "EMA_26" then some ["Close"]
  else if f = "RSI" then some ["Close"]
  else if f = "MACD" then some ["EMA_12", "EMA_26"]
  else if f = "MACD_Signal" then some ["MACD"]
  else if f = "BB_Upper" then some ["Close"]
  else if f = "BB_Lower" then some ["Close"]
  else if f = "BB_Width" then some ["BB_Upper", "BB_Lower", "SMA_20"]
  else if f = "Volume_SMA_10" then some ["Volume"]
  else if f = "Price_Volume_Ratio" then some ["Close", "Volume", "Volume_SMA_10"]
  else if f = "ATR" then some ["High", "Low", "Close"]
  else if f = "ADX" then some ["High", "Low", "Close"]
  else if f = "Stoch_K" then some ["High", "Low", "Close"]
  else if f = "Stoch_D" then some ["Stoch_K"]
  else if f = "MFI" then some ["High", "Low", "Close", "Volume"]
  else none

/-- Scenario D of the spec: `"MACD"` re-registered to depend on itself
(`register_feature` overwrites, last write wins). -/
def selfLoopDeps : String → Option (List String) := fun f =>
  if f = "MACD" then some ["MACD"] else defaultDeps f

/-- Edge of the dependency graph restricted to the requested list: `a` depends
on `b` and both are requested. -/
def EdgeIn (defs : String → Option (List String)) (L : List String)
    (a b : String) : Prop :=
  a ∈ L ∧ b ∈ L ∧ b ∈ depsOf defs a

instance (defs : String → Option (List String)) (L : List String) (a b : String) :
    Decidable (EdgeIn defs L a b) := by
  unfold EdgeIn; infer_instance

/-- Acyclicity certificate: a rank function strictly decreasing along
requested-to-requested dependency edges. -/
def RankOK (defs : String → Option (List String)) (L : List String)
    (r : String → Nat) : Prop :=
  ∀ f ∈ L, ∀ d ∈ depsOf defs f, d ∈ L → r d < r f

instance (defs : String → Option (List String)) (L : List String) (r : String → Nat) :
    Decidable (RankOK defs L r) := by
  unfold RankOK; infer_instance

/-- `out` lists every feature only after all of its requested dependencies:
position-wise, the dependencies in `L` of the element at index `i` occur among
the first `i` elements. -/
def seenOrder (defs : String → Option (List String)) (L : List String) :
    List String → List String → Prop
  | _, [] => True
  | seen, f :: rest =>
    (∀ d ∈ depsOf defs f, d ∈ L → d ∈ seen) ∧ seenOrder defs L (f :: seen) rest

/-! ### Feature calculation engine (`FeatureStore.calculate_features`) -/

/-- A column of numeric values. -/
abbrev Col := List ℚ

/-- A DataFrame: association list of named columns, append-only. -/
abbrev Table := List (String × Col)

/-- Column lookup (`feature_name in result.columns` / `df[name]`). -/
def getCol : Table → String → Option Col
  | [], _ => none
  | (c, v) :: t, d => if c = d then some v else getCol t d

/-- The feature registry: `feature_definitions` and `feature_registry` share
their key set (`register_feature` writes both), so one map carries the
dependency list and the calculation function.  A calculation returning `none`
models the function raising an exception. -/
structure FeatureReg where
  reg : String → Option (List String × (Table → Option Col))

/-- The dependency view of a registry, as used by the topological sort. -/
def FeatureReg.depsMap (fs : FeatureReg) : String → Option (List String) :=
  fun f => (fs.reg f).map Prod.fst

/-- One iteration of the `for feature_name in sorted_features` loop of
`calculate_features`: skip when already a column, skip (with a log) when
unregistered, skip when a dependency is missing, skip when the calculation
raises, otherwise append the new column. -/
def calcStep (fs : FeatureReg) (t : Table) (f : String) : Table :=
  if (getCol t f).isSome then t
  else
    match fs.reg f with
    | none => t
    | some (ds, calcFn) =>
      if ds.all (fun d => (getCol t d).isSome) then
        match calcFn t with
        | some col => t ++ [(f, col)]
        | none => t
      else t

/-- `FeatureStore.calculate_features(data, feature_list)`.  A cycle in the
requested list propagates the `ValueError` of the sort; every per-feature
failure is absorbed (fail-soft). -/
def calculateFeatures (fs : FeatureReg) (L : List String) (t : Table) :
    Except SortError Table :=
  match sortFeaturesByDependencies fs.depsMap L with
  | .error e => .error e
  | .ok sorted => .ok (sorted.foldl (calcStep fs) t)

/-- A registry is dependency-local when each calculation reads only its
declared dependency columns — true of every default feature
(e.g. `_calculate_macd` reads exactly `EMA_12` and `EMA_26`). -/
def DepLocal (fs : FeatureReg) : Prop :=
  ∀ f ds calcFn, fs.reg f = some (ds, calcFn) →
    ∀ t1 t2 : Table, (∀ d ∈ ds, getCol t1 d = getCol t2 d) → calcFn t1 = calcFn t2

/-! ### Feature columns of training and inference sequences
(`ImprovedLSTMPredictor`).

At training time `_prepare_features` builds `scaled_df` whose columns are
`trained_features` (the essential features found in the prepared data) and
then appends a `target` column; `_create_sequences` uses every column except
`target` as model input.  At inference time `_prepare_features_for_prediction`
builds `scaled_df` with the saved feature list as columns, then executes
`scaled_df['Close'] = prepared_data['Close']` — overwriting the scaled
`Close` column in place when `Close` is among the features (it always is) —
and `_create_prediction_sequences` uses every column except `Close`. -/

/-- `ImprovedLSTMPredictor.essential_features`. -/
def essentialFeatures : List String :=
  ["Close", "Volume", "Returns", "Log_Returns",
   "SMA_10", "SMA_20", "EMA_12", "EMA_26",
   "RSI", "MACD", "MACD_Signal",
   "BB_Upper", "BB_Lower", "BB_Width",
   "Volume_SMA_10", "Price_Volume_Ratio", "ATR", "ADX"]

/-- `trained_features = [f for f in self.essential_features if f in prepared_data.columns]`. -/
def trainedFeatures (availableColumns : List String) : List String :=
  essentialFeatures.filter (· ∈ availableColumns)

/-- Columns of the training `scaled_df` after `scaled_df['target'] = scaled_target`. -/
def trainingScaledColumns (tf : List String) : List String :=
  tf ++ ["target"]

/-- `_create_sequences`: `feature_columns = [col for col in data.columns if col != 'target']`. -/
def trainSequenceFeatureColumns (tf : List String) : List String :=
  (trainingScaledColumns tf).filter (· ≠ "target")

/-- Columns of the inference `scaled_df` after
`scaled_df['Close'] = prepared_data['Close']` (pandas overwrites in place when
the column exists, else appends). -/
def predictionScaledColumns (features : List String) : List String :=
  if "Close" ∈ features then features else features ++ ["Close"]

/-- `_create_prediction_sequences`:
`feature_columns = [col for col in data.columns if col != 'Close']`. -/
def predictionSequenceFeatureColumns (features : List String) : List String :=
  (predictionScaledColumns features).filter (· ≠ "Close")

/-- The feature list recorded in the saved metadata
(`'features': self.trained_features` in `_save_model_artifacts`). -/
def metadataFeatureList (tf : List String) : List String := tf

/-! ### Inference windowing (`_create_prediction_sequences` and step 4 of
`ImprovedLSTMPredictor.predict`) -/

/-- `_create_prediction_sequences(data)`: one sequence made of the last
`sequence_length` rows when enough rows exist, otherwise no sequence. -/
def createPredictionSequences (seqLen : Nat) (rows : List (List ℚ)) :
    List (List (List ℚ)) :=
  if seqLen ≤ rows.length then [rows.drop (rows.length - seqLen)] else []

/-- Step 4 of `predict`: `if len(X_pred) == 0: raise ValueError("No valid
prediction sequences created")` — the spec's `InsufficientDataError`. -/
def predictWindowing (seqLen : Nat) (rows : List (List ℚ)) :
    Except String (List (List (List ℚ))) :=
  let X := createPredictionSequences seqLen rows
  if X.length = 0 then .error "No valid prediction sequences created"
  else .ok X

/-! ### Retraining policy (`ImprovedLSTMPredictor.retrain_if_needed`) -/

/-- `retrain_if_needed`: the artifact is identified by whether both the model
file and the metadata file exist; `daysSinceTraining` is
`(datetime.utcnow() - last_trained).days`. -/
def retrainIfNeeded (artifactExists : Bool) (daysSinceTraining : Nat)
    (dataLen : Nat) (maxAgeDays : Nat) (minDataPoints : Nat) : Bool :=
  if !artifactExists then true
  else if maxAgeDays < daysSinceTraining then true
  else if dataLen < minDataPoints then false
  else false

/-! ### Scaler fitting in `_prepare_features` (claim about leakage).

`train` splits the *sequences* at `split_idx = int(len(X) * (1 - validation_split))`;
`_prepare_features` has already called `fit_transform` on the whole prepared
table by then, for both scalers.  A `MinMaxScaler` fit is characterised by the
data minimum and maximum of the rows it is given. -/

/-- Minimum of a column (`MinMaxScaler.data_min_`); 0 for the empty column. -/
def dataMin : List ℚ → ℚ
  | [] => 0
  | x :: r => r.foldl min x

/-- Maximum of a column (`MinMaxScaler.data_max_`); 0 for the empty column. -/
def dataMax : List ℚ → ℚ
  | [] => 0
  | x :: r => r.foldl max x

/-- Parameters a `MinMaxScaler` learns from the rows it is fitted on. -/
def fitMinMax (xs : List ℚ) : ℚ × ℚ := (dataMin xs, dataMax xs)

/-- The target-scaler fit performed by `_prepare_features`:
`self.target_scaler.fit_transform(prepared_data['Close'].values.reshape(-1, 1))`
— fitted on the entire prepared `Close` column. -/
def prepareFeaturesTargetFit (closes : List ℚ) : ℚ × ℚ :=
  fitMinMax closes

/-- Number of training sequences produced by `_create_sequences` on `n` rows:
the loop runs `i` from `sequence_length` to `n - prediction_horizon`. -/
def numSequences (n seqLen horizon : Nat) : Nat :=
  n - horizon + 1 - seqLen

/-- `split_idx = int(len(X) * (1 - validation_split))` (truncation towards
zero equals the floor for the non-negative values that occur). -/
def splitIndex (nSeq : Nat) (validationSplit : ℚ) : Nat :=
  (⌊(nSeq : ℚ) * (1 - validationSplit)⌋).toNat

/-- Row `j` is referenced by some training-partition sequence: sequence `k`
(for `k < split`) has input rows `[k, k + seqLen)` and target row
`k + seqLen + horizon - 1`. -/
def usedByTrainSeq (seqLen horizon split j : Nat) : Prop :=
  ∃ k, k < split ∧ ((k ≤ j ∧ j < k + seqLen) ∨ j = k + seqLen + horizon - 1)

instance (seqLen horizon split j : Nat) :
    Decidable (usedByTrainSeq seqLen horizon split j) := by
  unfold usedByTrainSeq; infer_instance

/-- The row-count gate of `_validate_input_data`, which `train` runs before
any scaler is fitted: `if len(data) < 100: return False`. -/
def validateInputDataRows (nRows : Nat) : Bool := decide (100 ≤ nRows)

/-- `min_required_samples = self.sequence_length + self.prediction_horizon + 50`;
`train` aborts when the prepared table has fewer rows than this. -/
def trainMinRequiredSamples (seqLen horizon : Nat) : Nat := seqLen + horizon + 50

/-- The row indices handed to both `fit_transform` calls of
`_prepare_features` (the feature scaler on
`prepared_data[self.trained_features]`, the target scaler on
`prepared_data['Close']`): every row of the prepared table. -/
def scalerFitRows (nRows : Nat) : List Nat := List.range nRows

/-- A reachable prepared `Close` column for the default configuration
(`sequence_length = 60`, `prediction_horizon = 7`): 120 rows with strictly
increasing prices `j + 1`, large enough to pass both of `train`'s size
gates. -/
def wCloses120 : List ℚ := (List.range 120).map (fun (j : Nat) => (j : ℚ) + 1)

/-! ### Volatility constraints (`_apply_volatility_constraints`) and
confidence intervals (`_calculate_confidence_intervals`).

Both start from `returns = data['Close'].pct_change().dropna()` and
`returns.std()` (pandas default `ddof=1`). -/

/-- `Series.pct_change().dropna()`: consecutive ratios minus one. -/
noncomputable def pctChange : List ℝ → List ℝ
  | a :: b :: rest => (b / a - 1) :: pctChange (b :: rest)
  | _ => []

/-- Arithmetic mean. -/
noncomputable def listMean (xs : List ℝ) : ℝ := xs.sum / (xs.length : ℝ)

/-- Sample variance with `ddof = 1` (the pandas `std` default, squared). -/
noncomputable def sampleVar (xs : List ℝ) : ℝ :=
  ((xs.map (fun x => (x - listMean xs) ^ 2)).sum) / ((xs.length : ℝ) - 1)

/-- `daily_volatility = returns.std()`. -/
noncomputable def dailyVolatility (closes : List ℝ) : ℝ :=
  Real.sqrt (sampleVar (pctChange closes))

/-- `current_price = data['Close'].iloc[-1]`. -/
def currentPrice (closes : List ℝ) : ℝ := closes.getLastD 0

/-- The `for i, pred_price in enumerate(predictions)` loop of
`_apply_volatility_constraints`: `maxDaily` is `3 * daily_volatility`, `i` the
running index, `ref` the reference price (current price, then the previous
constrained prediction). -/
noncomputable def constrain (maxDaily : ℝ) : Nat → ℝ → List ℝ → List ℝ
  | _, _, [] => []
  | i, ref, p :: ps =>
    let maxChange := if i = 0 then maxDaily else maxDaily * Real.sqrt ((i : ℝ) + 1)
    let pct := (p - ref) / ref
    let c := if |pct| > maxChange then ref * (1 + Real.sign pct * maxChange) else p
    c :: constrain maxDaily (i + 1) c ps

/-- `_apply_volatility_constraints(predictions, data, symbol)`. -/
noncomputable def applyVolatilityConstraints (predictions closes : List ℝ) : List ℝ :=
  constrain (3 * dailyVolatility closes) 0 (currentPrice closes) predictions

/-- Reference price of step `i` against the constrained output `out`. -/
noncomputable def refPrice (closes : List ℝ) (out : List ℝ) (i : Nat) : ℝ :=
  if i = 0 then currentPrice closes else out.getD (i - 1) 0

/-- The per-step bound of `_apply_volatility_constraints`. -/
noncomputable def maxChangeAt (maxDaily : ℝ) (i : Nat) : ℝ :=
  if i = 0 then maxDaily else maxDaily * Real.sqrt ((i : ℝ) + 1)

/-- One confidence interval of `_calculate_confidence_intervals`. -/
structure ConfInterval where
  lower : ℝ
  upper : ℝ
  confidence : ℝ

/-- The `for i, pred_price in enumerate(predictions)` loop of
`_calculate_confidence_intervals`. -/
noncomputable def ciLoop (vol : ℝ) : Nat → List ℝ → List ConfInterval
  | _, [] => []
  | i, p :: ps =>
    let width := p * vol * Real.sqrt ((i : ℝ) + 1) * 1.96
    { lower := max 0 (p - width)
      upper := p + width
      confidence := max 0.2 (0.8 - (i : ℝ) * 0.1) } :: ciLoop vol (i + 1) ps

/-- `_calculate_confidence_intervals(predictions, data)`. -/
noncomputable def calcConfidenceIntervals (predictions closes : List ℝ) :
    List ConfInterval :=
  ciLoop (dailyVolatility closes) 0 predictions

/-! ### Missing-feature policy of `LSTMPredictor.predict`
(`lstm_model.py`, the fail / fill logic).

`available_features` are the trained feature names present in the live data;
fewer than 80 % available raises `ValueError("Too many features missing...")`
(the spec's `FeatureMismatchError`); otherwise each missing feature column is
filled with the constant `recent_data['Close'].iloc[-1] * 0.01` when a `Close`
column exists, else the median of the first column. -/

inductive PredictError where
  | noFeatures : PredictError
  | tooManyMissing : PredictError
deriving DecidableEq

/-- The feature-availability gate and substitution of `LSTMPredictor.predict`:
returns the per-missing-feature fill values on success. -/
def predictFeatureFill (featureNames : List String) (liveColumns : List String)
    (lastClose : ℚ) (firstColMedian : ℚ) :
    Except PredictError (List (String × ℚ)) :=
  let available := featureNames.filter (· ∈ liveColumns)
  let missing := featureNames.filter (· ∉ liveColumns)
  if available.length = 0 then .error .noFeatures
  else if (available.length : ℚ) < (featureNames.length : ℚ) * 0.8 then
    .error .tooManyMissing
  else
    .ok (missing.map (fun f =>
      (f, if "Close" ∈ liveColumns then lastClose * 0.01 else firstColMedian)))

/-- Two lists with the same members. -/
def SameMem (xs ys : List String) : Prop := ∀ a, a ∈ xs ↔ a ∈ ys

/-- Invariant of the sort state: `visited` and `sorted` hold the same
features, `sorted` is duplicate-free, contains only requested features, and
respects dependency order. -/
def SortInv (defs : String → Option (List String)) (L : List String)
    (s : SortState) : Prop :=
  SameMem s.visited s.sorted ∧ s.sorted.Nodup ∧ (∀ x ∈ s.sorted, x ∈ L) ∧
  seenOrder defs L [] s.sorted

/-- What an `ok` return of `visit` guarantees. -/
def VisitOkSpec (defs : String → Option (List String)) (L : List String)
    (s : SortState) (f : String) (s2 : SortState) : Prop :=
  s2.temp = s.temp ∧
  (∀ x ∈ s.visited, x ∈ s2.visited) ∧
  f ∈ s2.visited ∧
  (∀ x ∈ s2.visited, x ∈ s.visited ∨ x ∉ s.temp) ∧
  (f ∈ L → SortInv defs L s → SortInv defs L s2)

/-- Reference price of step `j`: the starting reference for the first step,
the previous element of `out` afterwards. -/
noncomputable def refAt (ref : ℝ) (out : List ℝ) : ℕ → ℝ
  | 0 => ref
  | j + 1 => out.getD j 0

/-- Witness registry for idempotence: two features whose calculations copy
their declared dependency column. -/
def wCalcReg : FeatureReg :=
  ⟨fun f =>
    if f = "EMA_12" then some (["Close"], fun t => getCol t "Close")
    else if f = "MACD" then some (["EMA_12"], fun t => getCol t "EMA_12")
    else none⟩

/-- Witness registry for fail-soft behaviour: `Good` copies its dependency,
`Bad` always raises. -/
def wBadReg : FeatureReg :=
  ⟨fun f =>
    if f = "Good" then some (["Close"], fun t => getCol t "Close")
    else if f = "Bad" then some (["Close"], fun _ => none)
    else none⟩

/-! ## Theorems -/

theorem refAt_cons (ref c : ℝ) (tail : List ℝ) (j : ℕ) :
    refAt ref (c :: tail) (j + 1) = refAt c tail j := by
  cases j <;> rfl

theorem seenOrder_append (defs : String → Option (List String)) (L : List String) :
    ∀ (xs seen : List String) (f : String),
      seenOrder defs L seen xs →
      (∀ d ∈ depsOf defs f, d ∈ L → d ∈ seen ∨ d ∈ xs) →
      seenOrder defs L seen (xs ++ [f]) := by
  intro xs
  induction xs with
  | nil =>
    intro seen f _ hf
    refine ⟨fun d hd hdL => ?_, trivial⟩
    rcases hf d hd hdL with h | h
    · exact h
    · simp at h
  | cons x xs ih =>
    intro seen f hso hf
    obtain ⟨hx, hrest⟩ := hso
    refine ⟨hx, ih (x :: seen) f hrest ?_⟩
    intro d hd hdL
    rcases hf d hd hdL with h | h
    · exact Or.inl (List.mem_cons_of_mem _ h)
    · rcases List.mem_cons.mp h with h | h
      · exact Or.inl (h ▸ List.mem_cons_self _ _)
      · exact Or.inr h

theorem visitDeps_ok (defs : String → Option (List String)) (L : List String)
    (step : SortState → String → Except SortError SortState)
    (hstep : ∀ s d s2, step s d = .ok s2 → d ∈ L → VisitOkSpec defs L s d s2) :
    ∀ (ds : List String) (s s2 : SortState),
      visitDeps step L s ds = .ok s2 →
      s2.temp = s.temp ∧
      (∀ x ∈ s.visited, x ∈ s2.visited) ∧
      (∀ d ∈ ds, d ∈ L → d ∈ s2.visited) ∧
      (∀ x ∈ s2.visited, x ∈ s.visited ∨ x ∉ s.temp) ∧
      (SortInv defs L s → SortInv defs L s2) := by
  intro ds
  induction ds with
  | nil =>
    intro s s2 h
    simp only [visitDeps] at h
    cases h
    exact ⟨rfl, fun x hx => hx, by simp, fun x hx => Or.inl hx, id⟩
  | cons d ds ih =>
    intro s s2 h
    simp only [visitDeps] at h
    by_cases hdL : d ∈ L
    · rw [if_pos hdL] at h
      cases hstepd : step s d with
      | error e => rw [hstepd] at h; cases h
      | ok s1 =>
        rw [hstepd] at h
        obtain ⟨ht1, hm1, hd1, hnew1, hinv1⟩ := hstep s d s1 hstepd hdL
        obtain ⟨ht2, hm2, hds2, hnew2, hinv2⟩ := ih s1 s2 h
        refine ⟨ht2.trans ht1, fun x hx => hm2 x (hm1 x hx), ?_, ?_, fun hi => hinv2 (hinv1 hdL hi)⟩
        · intro e he heL
          rcases List.mem_cons.mp he with rfl | he
          · exact hm2 e hd1
          · exact hds2 e he heL
        · intro x hx
          rcases hnew2 x hx with hx1 | hx1
          · exact hnew1 x hx1
          · rw [ht1] at hx1
            exact Or.inr hx1
    · rw [if_neg hdL] at h
      obtain ⟨ht2, hm2, hds2, hnew2, hinv2⟩ := ih s s2 h
      refine ⟨ht2, hm2, ?_, hnew2, hinv2⟩
      intro e he heL
      rcases List.mem_cons.mp he with rfl | he
      · exact absurd heL hdL
      · exact hds2 e he heL

theorem visit_ok (defs : String → Option (List String)) (L : List String) :
    ∀ (fuel : Nat) (s : SortState) (f : String) (s2 : SortState),
      visit defs L fuel s f = .ok s2 → VisitOkSpec defs L s f s2 := by
  intro fuel
  induction fuel with
  | zero => intro s f s2 h; cases h
  | succ fuel ih =>
    intro s f s2 h
    simp only [visit, visitBody] at h
    by_cases hft : f ∈ s.temp
    · rw [if_pos hft] at h; cases h
    · rw [if_neg hft] at h
      by_cases hfv : f ∈ s.visited
      · rw [if_pos hfv] at h
        cases h
        exact ⟨rfl, fun x hx => hx, hfv, fun x hx => Or.inl hx, fun _ => id⟩
      · rw [if_neg hfv] at h
        cases hdeps : visitDeps (visit defs L fuel) L ⟨f :: s.temp, s.visited, s.sorted⟩ (depsOf defs f) with
        | error e => rw [hdeps] at h; cases h
        | ok sd =>
          rw [hdeps] at h
          cases h
          obtain ⟨ht, hm, hds, hnew, hinv⟩ :=
            visitDeps_ok defs L (visit defs L fuel) (fun s d s2 h _ => ih s d s2 h)
              (depsOf defs f) ⟨f :: s.temp, s.visited, s.sorted⟩ sd hdeps
          have htemp : sd.temp.erase f = s.temp := by
            rw [ht]; exact List.erase_cons_head f s.temp
          have hfnotv : f ∉ sd.visited := by
            intro hmem
            rcases hnew f hmem with hc | hc
            · exact hfv hc
            · exact hc (List.mem_cons_self f s.temp)
          refine ⟨htemp, ?_, List.mem_cons_self f _, ?_, ?_⟩
          · intro x hx
            exact List.mem_cons_of_mem _ (hm x hx)
          · intro x hx
            rcases List.mem_cons.mp hx with rfl | hx
            · exact Or.inr hft
            · rcases hnew x hx with hc | hc
              · exact Or.inl hc
              · exact Or.inr fun hmem => hc (List.mem_cons_of_mem _ hmem)
          · intro hfL hi
            have hi2 : SortInv defs L sd := hinv hi
            obtain ⟨hsm, hnd, hel, hord⟩ := hi2
            have hfnots : f ∉ sd.sorted := fun hmem => hfnotv ((hsm f).mpr hmem)
            refine ⟨?_, ?_, ?_, ?_⟩
            · intro a
              constructor
              · intro ha
                rcases List.mem_cons.mp ha with rfl | ha
                · simp
                · exact List.mem_append_left _ ((hsm a).mp ha)
              · intro ha
                rcases List.mem_append.mp ha with ha | ha
                · exact List.mem_cons_of_mem _ ((hsm a).mpr ha)
                · simp at ha
                  exact ha ▸ List.mem_cons_self _ _
            · rw [List.nodup_append]
              exact ⟨hnd, List.nodup_singleton f, by
                intro x hx hmem
                simp at hmem
                exact hfnots (hmem ▸ hx)⟩
            · intro x hx
              rcases List.mem_append.mp hx with hx | hx
              · exact hel x hx
              · simp at hx
                exact hx ▸ hfL
            · refine seenOrder_append defs L sd.sorted [] f hord ?_
              intro d hd hdL
              exact Or.inr ((hsm d).mp (hds d hd hdL))

theorem visitAll_ok (defs : String → Option (List String)) (L : List String)
    (fuel : Nat) :
    ∀ (fs : List String) (s s2 : SortState),
      visitAll defs L fuel s fs = .ok s2 →
      s2.temp = s.temp ∧
      (∀ x ∈ s.visited, x ∈ s2.visited) ∧
      (∀ f ∈ fs, f ∈ s2.visited) ∧
      ((∀ f ∈ fs, f ∈ L) → SortInv defs L s → SortInv defs L s2) := by
  intro fs
  induction fs with
  | nil =>
    intro s s2 h
    simp only [visitAll] at h
    cases h
    exact ⟨rfl, fun x hx => hx, by simp, fun _ => id⟩
  | cons f fs ih =>
    intro s s2 h
    simp only [visitAll] at h
    cases hv : visit defs L fuel s f with
    | error e => rw [hv] at h; cases h
    | ok s1 =>
      rw [hv] at h
      obtain ⟨ht1, hm1, hf1, _, hinv1⟩ := visit_ok defs L fuel s f s1 hv
      obtain ⟨ht2, hm2, hfs2, hinv2⟩ := ih s1 s2 h
      refine ⟨ht2.trans ht1, fun x hx => hm2 x (hm1 x hx), ?_, ?_⟩
      · intro e he
        rcases List.mem_cons.mp he with rfl | he
        · exact hm2 e hf1
        · exact hfs2 e he
      · intro hL hi
        exact hinv2 (fun g hg => hL g (List.mem_cons_of_mem _ hg))
          (hinv1 (hL f (List.mem_cons_self _ _)) hi)

/-- Soundness facts of a successful sort. -/
theorem sort_ok (defs : String → Option (List String)) (L : List String)
    (out : List String) (h : sortFeaturesByDependencies defs L = .ok out) :
    out.Nodup ∧ (∀ x ∈ out, x ∈ L) ∧ (∀ x ∈ L, x ∈ out) ∧
    seenOrder defs L [] out := by
  unfold sortFeaturesByDependencies at h
  cases hva : visitAll defs L (L.length + 1) ⟨[], [], []⟩ L with
  | error e => rw [hva] at h; cases h
  | ok s2 =>
    rw [hva] at h
    cases h
    obtain ⟨_, _, hall, hinv⟩ := visitAll_ok defs L (L.length + 1) L ⟨[], [], []⟩ s2 hva
    have hi : SortInv defs L s2 :=
      hinv (fun f hf => hf) ⟨fun a => by simp, List.nodup_nil, by simp, trivial⟩
    obtain ⟨hsm, hnd, hel, hord⟩ := hi
    exact ⟨hnd, hel, fun x hx => (hsm x).mp (hall x hx), hord⟩

theorem visit_total (defs : String → Option (List String)) (L : List String)
    (r : String → Nat) (hr : RankOK defs L r) :
    ∀ (fuel : Nat) (s : SortState) (f : String),
      f ∈ L → s.temp.Nodup → (∀ x ∈ s.temp, x ∈ L) →
      (∀ x ∈ s.temp, r f < r x) →
      L.length + 1 ≤ fuel + s.temp.length →
      ∃ s2, visit defs L fuel s f = .ok s2 := by
  intro fuel
  induction fuel with
  | zero =>
    intro s f _ hnd hsub _ hbound
    exfalso
    have hle : s.temp.length ≤ L.length :=
      ((hnd.subperm) (fun x hx => hsub x hx)).length_le
    omega
  | succ fuel ih =>
    intro s f hfL hnd hsub hchain hbound
    simp only [visit, visitBody]
    have hft : f ∉ s.temp := fun hmem => lt_irrefl _ (hchain f hmem)
    rw [if_neg hft]
    by_cases hfv : f ∈ s.visited
    · rw [if_pos hfv]; exact ⟨s, rfl⟩
    · rw [if_neg hfv]
      have hdeps : ∀ (ds : List String), (∀ d ∈ ds, d ∈ depsOf defs f) →
          ∀ st : SortState, st.temp = f :: s.temp →
          ∃ sd, visitDeps (visit defs L fuel) L st ds = .ok sd := by
        intro ds
        induction ds with
        | nil => intro _ st _; exact ⟨st, rfl⟩
        | cons d ds ihd =>
          intro hds st hst
          simp only [visitDeps]
          by_cases hdL : d ∈ L
          · rw [if_pos hdL]
            have hrd : r d < r f := hr f hfL d (hds d (List.mem_cons_self _ _)) hdL
            obtain ⟨st1, hst1⟩ := ih st d hdL
              (by rw [hst]; exact List.nodup_cons.mpr ⟨hft, hnd⟩)
              (by rw [hst]; intro x hx
                  rcases List.mem_cons.mp hx with rfl | hx
                  · exact hfL
                  · exact hsub x hx)
              (by rw [hst]; intro x hx
                  rcases List.mem_cons.mp hx with rfl | hx
                  · exact hrd
                  · exact hrd.trans (hchain x hx))
              (by rw [hst]; simp only [List.length_cons]; omega)
            rw [hst1]
            have ht1 : st1.temp = f :: s.temp := by
              rw [(visit_ok defs L fuel st d st1 hst1).1, hst]
            exact ihd (fun e he => hds e (List.mem_cons_of_mem _ he)) st1 ht1
          · rw [if_neg hdL]
            exact ihd (fun e he => hds e (List.mem_cons_of_mem _ he)) st hst
      obtain ⟨sd, hsd⟩ := hdeps (depsOf defs f) (fun d hd => hd)
        ⟨f :: s.temp, s.visited, s.sorted⟩ rfl
      rw [hsd]
      exact ⟨_, rfl⟩

theorem visitAll_total (defs : String → Option (List String)) (L : List String)
    (r : String → Nat) (hr : RankOK defs L r) (fuel : Nat)
    (hfuel : L.length + 1 ≤ fuel) :
    ∀ (fs : List String) (s : SortState),
      (∀ f ∈ fs, f ∈ L) → s.temp = [] →
      ∃ s2, visitAll defs L fuel s fs = .ok s2 := by
  intro fs
  induction fs with
  | nil => intro s _ _; exact ⟨s, rfl⟩
  | cons f fs ih =>
    intro s hL hst
    simp only [visitAll]
    obtain ⟨s1, hs1⟩ := visit_total defs L r hr fuel s f
      (hL f (List.mem_cons_self _ _))
      (by rw [hst]; exact List.nodup_nil)
      (by rw [hst]; intro x hx; cases hx)
      (by rw [hst]; intro x hx; cases hx)
      (by rw [hst]; simpa using hfuel)
    rw [hs1]
    exact ih s1 (fun g hg => hL g (List.mem_cons_of_mem _ hg))
      ((visit_ok defs L fuel s f s1 hs1).1.trans hst)

/-- With an acyclicity certificate the sort always succeeds. -/
theorem sort_total (defs : String → Option (List String)) (L : List String)
    (r : String → Nat) (hr : RankOK defs L r) :
    ∃ out, sortFeaturesByDependencies defs L = .ok out := by
  obtain ⟨s2, hs2⟩ := visitAll_total defs L r hr (L.length + 1) (le_refl _) L
    ⟨[], [], []⟩ (fun f hf => hf) rfl
  exact ⟨s2.sorted, by unfold sortFeaturesByDependencies; rw [hs2]⟩

theorem visit_no_fuel (defs : String → Option (List String)) (L : List String) :
    ∀ (fuel : Nat) (s : SortState) (f : String),
      f ∈ L → s.temp.Nodup → (∀ x ∈ s.temp, x ∈ L) →
      L.length + 1 ≤ fuel + s.temp.length →
      visit defs L fuel s f ≠ .error .fuelExhausted := by
  intro fuel
  induction fuel with
  | zero =>
    intro s f _ hnd hsub hbound
    exfalso
    have hle : s.temp.length ≤ L.length :=
      ((hnd.subperm) (fun x hx => hsub x hx)).length_le
    omega
  | succ fuel ih =>
    intro s f hfL hnd hsub hbound
    simp only [visit, visitBody]
    by_cases hft : f ∈ s.temp
    · rw [if_pos hft]; intro h; cases h
    · rw [if_neg hft]
      by_cases hfv : f ∈ s.visited
      · rw [if_pos hfv]; intro h; cases h
      · rw [if_neg hfv]
        have hdeps : ∀ (ds : List String) (st : SortState), st.temp = f :: s.temp →
            visitDeps (visit defs L fuel) L st ds ≠ .error .fuelExhausted := by
          intro ds
          induction ds with
          | nil => intro st _ h; cases h
          | cons d ds ihd =>
            intro st hst
            simp only [visitDeps]
            by_cases hdL : d ∈ L
            · rw [if_pos hdL]
              cases hv : visit defs L fuel st d with
              | error e =>
                intro h
                cases h
                refine ih st d hdL ?_ ?_ ?_ hv
                · rw [hst]; exact List.nodup_cons.mpr ⟨hft, hnd⟩
                · rw [hst]; intro x hx
                  rcases List.mem_cons.mp hx with rfl | hx
                  · exact hfL
                  · exact hsub x hx
                · rw [hst]; simp only [List.length_cons]; omega
              | ok st1 =>
                exact ihd st1 (by rw [(visit_ok defs L fuel st d st1 hv).1, hst])
            · rw [if_neg hdL]
              exact ihd st hst
        cases hsd : visitDeps (visit defs L fuel) L ⟨f :: s.temp, s.visited, s.sorted⟩ (depsOf defs f) with
        | error e =>
          intro h
          cases h
          exact hdeps (depsOf defs f) ⟨f :: s.temp, s.visited, s.sorted⟩ rfl hsd
        | ok sd => intro h; cases h

/-- From a chain-shaped temp stack, every member reaches the head of the
stack along dependency edges. -/
theorem chain_reaches_head (E : String → String → Prop) :
    ∀ (rest : List String) (t0 : String),
      List.Chain' (fun x y => E y x) (t0 :: rest) →
      ∀ f ∈ t0 :: rest, Relation.ReflTransGen E f t0 := by
  intro rest
  induction rest with
  | nil =>
    intro t0 _ f hf
    rcases List.mem_cons.mp hf with rfl | hf
    · exact Relation.ReflTransGen.refl
    · cases hf
  | cons b l2 ih =>
    intro t0 hch f hf
    rcases List.mem_cons.mp hf with rfl | hf
    · exact Relation.ReflTransGen.refl
    · have hE : E b t0 := (List.chain'_cons.mp hch).1
      have hch2 : List.Chain' (fun x y => E y x) (b :: l2) :=
        (List.chain'_cons.mp hch).2
      exact (ih b hch2 f hf).tail hE

theorem visit_cycle (defs : String → Option (List String)) (L : List String) :
    ∀ (fuel : Nat) (s : SortState) (f g : String),
      visit defs L fuel s f = .error (.circular g) → f ∈ L →
      List.Chain' (fun x y => EdgeIn defs L y x) s.temp →
      (∀ t0 rest, s.temp = t0 :: rest → EdgeIn defs L t0 f) →
      Relation.TransGen (EdgeIn defs L) g g := by
  intro fuel
  induction fuel with
  | zero => intro s f g h; cases h
  | succ fuel ih =>
    intro s f g h hfL hch hhead
    simp only [visit, visitBody] at h
    by_cases hft : f ∈ s.temp
    · rw [if_pos hft] at h
      have hgf : f = g := SortError.circular.inj (Except.error.inj h)
      subst hgf
      cases htemp : s.temp with
      | nil => rw [htemp] at hft; cases hft
      | cons t0 rest =>
        rw [htemp] at hch hft
        have hpath : Relation.ReflTransGen (EdgeIn defs L) f t0 :=
          chain_reaches_head (EdgeIn defs L) rest t0 hch f hft
        exact Relation.TransGen.tail' hpath (hhead t0 rest htemp)
    · rw [if_neg hft] at h
      by_cases hfv : f ∈ s.visited
      · rw [if_pos hfv] at h; cases h
      · rw [if_neg hfv] at h
        cases hsd : visitDeps (visit defs L fuel) L ⟨f :: s.temp, s.visited, s.sorted⟩ (depsOf defs f) with
        | ok sd => rw [hsd] at h; cases h
        | error e =>
          rw [hsd] at h
          have hge : e = .circular g := Except.error.inj h
          subst hge
          have hextract : ∀ (ds : List String), (∀ d ∈ ds, d ∈ depsOf defs f) →
              ∀ st : SortState, st.temp = f :: s.temp →
              visitDeps (visit defs L fuel) L st ds = .error (.circular g) →
              ∃ d st2, d ∈ depsOf defs f ∧ d ∈ L ∧ st2.temp = f :: s.temp ∧
                visit defs L fuel st2 d = .error (.circular g) := by
            intro ds
            induction ds with
            | nil => intro _ st _ hh; cases hh
            | cons d ds ihd =>
              intro hds st hst hh
              simp only [visitDeps] at hh
              by_cases hdL : d ∈ L
              · rw [if_pos hdL] at hh
                cases hv : visit defs L fuel st d with
                | error e2 =>
                  rw [hv] at hh
                  have he2 : e2 = .circular g := Except.error.inj hh
                  subst he2
                  exact ⟨d, st, hds d (List.mem_cons_self _ _), hdL, hst, hv⟩
                | ok st1 =>
                  rw [hv] at hh
                  exact ihd (fun x hx => hds x (List.mem_cons_of_mem _ hx)) st1
                    (by rw [(visit_ok defs L fuel st d st1 hv).1, hst]) hh
              · rw [if_neg hdL] at hh
                exact ihd (fun x hx => hds x (List.mem_cons_of_mem _ hx)) st hst hh
          obtain ⟨d, st2, hdd, hdL, hst2, hv⟩ :=
            hextract (depsOf defs f) (fun x hx => hx) ⟨f :: s.temp, s.visited, s.sorted⟩ rfl hsd
          refine ih st2 d g hv hdL ?_ ?_
          · rw [hst2]
            cases htemp : s.temp with
            | nil => simp
            | cons t0 rest =>
              rw [htemp] at hch
              exact List.chain'_cons.mpr ⟨hhead t0 rest htemp, hch⟩
          · intro t0 rest heq
            rw [hst2] at heq
            have ht0 : f = t0 := by injection heq
            subst ht0
            exact ⟨hfL, hdL, hdd⟩

theorem sort_no_fuel (defs : String → Option (List String)) (L : List String) :
    sortFeaturesByDependencies defs L ≠ .error .fuelExhausted := by
  unfold sortFeaturesByDependencies
  have hall : ∀ (fs : List String) (s : SortState), (∀ f ∈ fs, f ∈ L) → s.temp = [] →
      visitAll defs L (L.length + 1) s fs ≠ .error .fuelExhausted := by
    intro fs
    induction fs with
    | nil => intro s _ _ h; cases h
    | cons f fs ih =>
      intro s hL hst
      simp only [visitAll]
      cases hv : visit defs L (L.length + 1) s f with
      | error e =>
        intro h
        cases h
        refine visit_no_fuel defs L (L.length + 1) s f (hL f (List.mem_cons_self _ _))
          ?_ ?_ ?_ hv
        · rw [hst]; exact List.nodup_nil
        · rw [hst]; intro x hx; cases hx
        · rw [hst]; simp
      | ok s1 =>
        exact ih s1 (fun g hg => hL g (List.mem_cons_of_mem _ hg))
          ((visit_ok defs L (L.length + 1) s f s1 hv).1.trans hst)
  cases hva : visitAll defs L (L.length + 1) ⟨[], [], []⟩ L with
  | error e =>
    intro h
    have he : e = .fuelExhausted := Except.error.inj h
    subst he
    exact hall L ⟨[], [], []⟩ (fun f hf => hf) rfl hva
  | ok s2 => intro h; cases h

theorem sort_cycle (defs : String → Option (List String)) (L : List String)
    (g : String) (h : sortFeaturesByDependencies defs L = .error (.circular g)) :
    Relation.TransGen (EdgeIn defs L) g g := by
  unfold sortFeaturesByDependencies at h
  have hall : ∀ (fs : List String) (s : SortState), (∀ f ∈ fs, f ∈ L) → s.temp = [] →
      visitAll defs L (L.length + 1) s fs = .error (.circular g) →
      Relation.TransGen (EdgeIn defs L) g g := by
    intro fs
    induction fs with
    | nil => intro s _ _ hh; cases hh
    | cons f fs ih =>
      intro s hL hst hh
      simp only [visitAll] at hh
      cases hv : visit defs L (L.length + 1) s f with
      | error e =>
        rw [hv] at hh
        have he : e = .circular g := Except.error.inj hh
        subst he
        refine visit_cycle defs L (L.length + 1) s f g hv (hL f (List.mem_cons_self _ _))
          ?_ ?_
        · rw [hst]; simp
        · intro t0 rest heq
          rw [hst] at heq
          cases heq
      | ok s1 =>
        rw [hv] at hh
        exact ih s1 (fun x hx => hL x (List.mem_cons_of_mem _ hx))
          ((visit_ok defs L (L.length + 1) s f s1 hv).1.trans hst) hh
  cases hva : visitAll defs L (L.length + 1) ⟨[], [], []⟩ L with
  | error e =>
    rw [hva] at h
    have he : e = .circular g := Except.error.inj h
    subst he
    exact hall L ⟨[], [], []⟩ (fun f hf => hf) rfl hva
  | ok s2 => rw [hva] at h; cases h

theorem seenOrder_take (defs : String → Option (List String)) (L : List String) :
    ∀ (xs seen : List String), seenOrder defs L seen xs →
      ∀ (i : Nat) (f : String), xs.get? i = some f →
        ∀ d ∈ depsOf defs f, d ∈ L → d ∈ seen ∨ d ∈ xs.take i := by
  intro xs
  induction xs with
  | nil => intro seen _ i f hf; cases hf
  | cons x xs ih =>
    intro seen hso i f hf d hd hdL
    obtain ⟨hx, hrest⟩ := hso
    cases i with
    | zero =>
      have hxf : x = f := by
        simpa using hf
      subst hxf
      exact Or.inl (hx d hd hdL)
    | succ i =>
      have hf2 : xs.get? i = some f := by simpa using hf
      rcases ih (x :: seen) hrest i f hf2 d hd hdL with h1 | h1
      · rcases List.mem_cons.mp h1 with rfl | h1
        · exact Or.inr (by simp [List.take_succ_cons])
        · exact Or.inl h1
      · exact Or.inr (by simp [List.take_succ_cons, h1])

theorem mem_take_indexOf_lt {α : Type} [DecidableEq α] :
    ∀ (l : List α) (i : Nat) (b : α), b ∈ l.take i → List.indexOf b l < i := by
  intro l
  induction l with
  | nil => intro i b hb; simp at hb
  | cons x l ih =>
    intro i b hb
    cases i with
    | zero => simp at hb
    | succ i =>
      rw [List.take_succ_cons] at hb
      rcases List.mem_cons.mp hb with rfl | hb
      · simp [List.indexOf_cons_self]
      · by_cases hxb : x = b
        · subst hxb; simp [List.indexOf_cons_self]
        · rw [List.indexOf_cons_ne _ (fun h => hxb h)]
          exact Nat.succ_lt_succ (ih i b hb)

/-- A successful sort certifies acyclicity: along every requested-to-requested
dependency edge the position in the output strictly decreases, so no cycle. -/
theorem no_cycle_of_sort_ok (defs : String → Option (List String)) (L : List String)
    (out : List String) (h : sortFeaturesByDependencies defs L = .ok out) (a : String) :
    ¬ Relation.TransGen (EdgeIn defs L) a a := by
  obtain ⟨hnd, hsub, hcover, hord⟩ := sort_ok defs L out h
  have hedge : ∀ x y, EdgeIn defs L x y → List.indexOf y out < List.indexOf x out := by
    intro x y ⟨hxL, hyL, hdep⟩
    have hx : x ∈ out := hcover x hxL
    have hidx : out.get? (List.indexOf x out) = some x := List.indexOf_get? hx
    rcases seenOrder_take defs L out [] hord (List.indexOf x out) x hidx y hdep hyL with h1 | h1
    · cases h1
    · exact mem_take_indexOf_lt out (List.indexOf x out) y h1
  have hdec : ∀ x y, Relation.TransGen (EdgeIn defs L) x y →
      List.indexOf y out < List.indexOf x out := by
    intro x y hxy
    induction hxy with
    | single h1 => exact hedge _ _ h1
    | tail _ h1 ih => exact (hedge _ _ h1).trans ih
  intro hcyc
  exact lt_irrefl _ (hdec a a hcyc)

/-- C2: duplicate-free acyclic lists are sorted into a permutation that puts
every feature after its requested dependencies; cyclic lists raise the
circular-dependency error naming a feature on a cycle. -/
theorem C2_sort_features_correct (defs : String → Option (List String)) (L : List String) :
    (∀ r : String → Nat, RankOK defs L r → L.Nodup →
      ∃ out, sortFeaturesByDependencies defs L = .ok out ∧ out.Perm L ∧
        ∀ (i : Nat) (f : String), out.get? i = some f →
          ∀ d ∈ depsOf defs f, d ∈ L → d ∈ out.take i) ∧
    (∀ g0, Relation.TransGen (EdgeIn defs L) g0 g0 →
      ∃ g, sortFeaturesByDependencies defs L = .error (.circular g) ∧
        Relation.TransGen (EdgeIn defs L) g g) := by
  constructor
  · intro r hr hnd
    obtain ⟨out, hout⟩ := sort_total defs L r hr
    obtain ⟨hnd2, hsub, hcover, hord⟩ := sort_ok defs L out hout
    refine ⟨out, hout, ?_, ?_⟩
    · exact (List.perm_ext_iff_of_nodup hnd2 hnd).mpr
        (fun a => ⟨fun ha => hsub a ha, fun ha => hcover a ha⟩)
    · intro i f hf d hd hdL
      rcases seenOrder_take defs L out [] hord i f hf d hd hdL with h1 | h1
      · cases h1
      · exact h1
  · intro g0 hg0
    cases hres : sortFeaturesByDependencies defs L with
    | ok out => exact absurd hg0 (no_cycle_of_sort_ok defs L out hres g0)
    | error e =>
      cases e with
      | fuelExhausted => exact absurd hres (sort_no_fuel defs L)
      | circular g => exact ⟨g, rfl, sort_cycle defs L g hres⟩

theorem C2_sort_features_correct_witness :
    (∃ out, sortFeaturesByDependencies defaultDeps ["MACD", "EMA_12", "EMA_26"] = .ok out ∧
      out.Perm ["MACD", "EMA_12", "EMA_26"] ∧
      ∀ (i : Nat) (f : String), out.get? i = some f →
        ∀ d ∈ depsOf defaultDeps f, d ∈ ["MACD", "EMA_12", "EMA_26"] → d ∈ out.take i) ∧
    (∃ g, sortFeaturesByDependencies selfLoopDeps ["MACD"] = .error (.circular g) ∧
      Relation.TransGen (EdgeIn selfLoopDeps ["MACD"]) g g) :=
  ⟨(C2_sort_features_correct defaultDeps ["MACD", "EMA_12", "EMA_26"]).1
      (fun f => if f = "MACD" then 1 else 0) (by decide) (by decide),
   (C2_sort_features_correct selfLoopDeps ["MACD"]).2 "MACD"
      (Relation.TransGen.single (by decide))⟩

/-- C1: the training sequences use the 18 `trained_features` columns
(including the scaled `Close`) — the same list recorded in the metadata — but
the single inference sequence drops `Close` (it was overwritten with raw
prices and then excluded), so the inference feature columns differ from the
training feature columns and from the recorded feature list. -/
theorem C1_pipeline_mismatch :
    trainSequenceFeatureColumns essentialFeatures = essentialFeatures ∧
    metadataFeatureList essentialFeatures = essentialFeatures ∧
    predictionSequenceFeatureColumns essentialFeatures ≠
      trainSequenceFeatureColumns essentialFeatures ∧
    predictionSequenceFeatureColumns essentialFeatures ≠
      metadataFeatureList essentialFeatures := by
  decide

/-- C5: at the concrete failing input (5 trained features, 4 available,
last close 200) the missing feature `ATR` is substituted with the constant
`200 * 0.01 = 2` — one percent of the close price, not a forward-filled value
of the feature — and with only 1 of 5 features available `predict` raises the
feature-mismatch error. -/
theorem C5_substitution_eval :
    predictFeatureFill ["Close", "Volume", "RSI", "SMA_10", "ATR"]
        ["Close", "Volume", "RSI", "SMA_10"] 200 0 = .ok [("ATR", 2)] ∧
    (2 : ℚ) = 200 * 0.01 ∧
    predictFeatureFill ["Close", "Volume", "RSI", "SMA_10", "ATR"]
        ["Close"] 200 0 = .error .tooManyMissing := by
  refine ⟨?_, by norm_num, ?_⟩
  · rw [predictFeatureFill]
    simp
    norm_num
  · rw [predictFeatureFill]
    simp
    norm_num

/-- C6: with at least `sequence_length` prepared rows `predict` builds exactly
one inference sequence consisting of the last `sequence_length` rows; with
fewer rows it fails with the insufficient-data error and returns nothing. -/
theorem C6_inference_windowing (seqLen : Nat) (rows : List (List ℚ)) :
    predictWindowing seqLen rows =
      if seqLen ≤ rows.length then .ok [rows.drop (rows.length - seqLen)]
      else .error "No valid prediction sequences created" := by
  unfold predictWindowing createPredictionSequences
  by_cases h : seqLen ≤ rows.length
  · simp [h]
  · simp [h]

/-- C7 counterexample: an artifact that exists, is 10 days old with
`max_age_days = 7` (stale), over data with 100 rows and
`min_data_points = 200` (insufficient) — the claim demands `false`, the code
returns `true`. -/
theorem C7_counterexample :
    retrainIfNeeded true 10 100 7 200 = true ∧ 7 < 10 ∧ 100 < 200 := by
  decide

/-- C7 amended: `retrain_if_needed` returns true exactly when no artifact
exists or the artifact is stale; the `min_data_points` test never changes the
result (a fresh artifact yields false either way, a stale one yields true
before the data size is consulted). -/
theorem C7_retrain_policy (artifactExists : Bool)
    (daysSinceTraining dataLen maxAgeDays minDataPoints : Nat) :
    retrainIfNeeded artifactExists daysSinceTraining dataLen maxAgeDays minDataPoints =
      (!artifactExists || decide (maxAgeDays < daysSinceTraining)) := by
  unfold retrainIfNeeded
  cases artifactExists with
  | false => simp
  | true =>
    by_cases h : maxAgeDays < daysSinceTraining
    · simp [h]
    · by_cases h2 : dataLen < minDataPoints <;> simp [h, h2]

theorem foldl_min_le_init (l : List ℚ) : ∀ x : ℚ, l.foldl min x ≤ x := by
  induction l with
  | nil => intro x; exact le_refl x
  | cons a l ih => intro x; exact (ih (min x a)).trans (min_le_left x a)

theorem foldl_min_le_mem (l : List ℚ) : ∀ (x y : ℚ), y ∈ l → l.foldl min x ≤ y := by
  induction l with
  | nil => intro x y hy; cases hy
  | cons a l ih =>
    intro x y hy
    rcases List.mem_cons.mp hy with rfl | hy
    · exact (foldl_min_le_init l (min x y)).trans (min_le_right x y)
    · exact ih (min x a) y hy

theorem foldl_min_mem (l : List ℚ) : ∀ x : ℚ, l.foldl min x = x ∨ l.foldl min x ∈ l := by
  induction l with
  | nil => intro x; exact Or.inl rfl
  | cons a l ih =>
    intro x
    rcases ih (min x a) with h | h
    · rcases min_choice x a with hc | hc
      · exact Or.inl (h.trans hc)
      · exact Or.inr (by rw [List.foldl_cons, h, hc]; exact List.mem_cons_self a l)
    · exact Or.inr (List.mem_cons_of_mem a h)

theorem le_foldl_max_init (l : List ℚ) : ∀ x : ℚ, x ≤ l.foldl max x := by
  induction l with
  | nil => intro x; exact le_refl x
  | cons a l ih => intro x; exact (le_max_left x a).trans (ih (max x a))

theorem le_foldl_max_mem (l : List ℚ) : ∀ (x y : ℚ), y ∈ l → y ≤ l.foldl max x := by
  induction l with
  | nil => intro x y hy; cases hy
  | cons a l ih =>
    intro x y hy
    rcases List.mem_cons.mp hy with rfl | hy
    · exact (le_max_right x y).trans (le_foldl_max_init l (max x y))
    · exact ih (max x a) y hy

theorem foldl_max_mem (l : List ℚ) : ∀ x : ℚ, l.foldl max x = x ∨ l.foldl max x ∈ l := by
  induction l with
  | nil => intro x; exact Or.inl rfl
  | cons a l ih =>
    intro x
    rcases ih (max x a) with h | h
    · rcases max_choice x a with hc | hc
      · exact Or.inl (h.trans hc)
      · exact Or.inr (by rw [List.foldl_cons, h, hc]; exact List.mem_cons_self a l)
    · exact Or.inr (List.mem_cons_of_mem a h)

theorem usedByTrainSeq_le (seqLen horizon split j : Nat)
    (h : usedByTrainSeq seqLen horizon split j) :
    j ≤ seqLen + horizon + split - 2 := by
  obtain ⟨k, hk, hc⟩ := h
  rcases hc with ⟨h1, h2⟩ | h3 <;> omega

theorem dataMax_spec (closes : List ℚ) (h : closes ≠ []) :
    dataMax closes ∈ closes ∧ ∀ x ∈ closes, x ≤ dataMax closes := by
  cases closes with
  | nil => exact absurd rfl h
  | cons c r =>
    constructor
    · show r.foldl max c ∈ c :: r
      rcases foldl_max_mem r c with h1 | h1
      · rw [h1]; exact List.mem_cons_self c r
      · exact List.mem_cons_of_mem c h1
    · intro x hx
      rcases List.mem_cons.mp hx with rfl | hx
      · exact le_foldl_max_init r x
      · exact le_foldl_max_mem r c x hx

theorem wCloses120_length : wCloses120.length = 120 := by
  simp only [wCloses120, List.length_map, List.length_range]

theorem wCloses120_getD (j : Nat) (hj : j < 120) :
    wCloses120.getD j 0 = (j : ℚ) + 1 := by
  have hlen : j < wCloses120.length := by
    rw [wCloses120_length]
    exact hj
  rw [List.getD_eq_getElem _ _ hlen]
  simp only [wCloses120, List.getElem_map, List.getElem_range]

/-- C3 counterexample: a reachable successful-`train` input — 120 prepared
rows with the default `sequence_length = 60` and `prediction_horizon = 7`,
passing both the 100-row raw-data gate of `_validate_input_data` and the
`60 + 7 + 50 = 117` minimum-prepared-samples gate of `train` — with
`validation_split = 1/5`: there are 54 sequences and `split_idx = 43`;
training sequences reference only rows `0..108` (all values ≤ 109), row 119
(value 120) is referenced by no training sequence, and yet the target scaler
is fitted with maximum 120 — the fit used a validation-only row, so the
scalers are not fitted only on the training partition. -/
theorem C3_counterexample :
    wCloses120.length = 120 ∧
    validateInputDataRows 120 = true ∧
    trainMinRequiredSamples 60 7 ≤ 120 ∧
    splitIndex (numSequences 120 60 7) (1/5) = 43 ∧
    ¬ usedByTrainSeq 60 7 43 119 ∧
    (prepareFeaturesTargetFit wCloses120).2 = 120 ∧
    (∀ j, usedByTrainSeq 60 7 43 j → wCloses120.getD j 0 ≤ 109) := by
  refine ⟨wCloses120_length, by decide, by decide, ?_, by decide, ?_, ?_⟩
  · show ((⌊(((120 - 7 + 1 - 60 : Nat) : ℚ)) * (1 - 1/5)⌋).toNat = 43)
    norm_num
    decide
  · have hne : wCloses120 ≠ [] :=
      List.length_pos.mp (by rw [wCloses120_length]; norm_num)
    obtain ⟨hmem, hub⟩ := dataMax_spec wCloses120 hne
    have hup : dataMax wCloses120 ≤ 120 := by
      rcases List.mem_map.mp hmem with ⟨j, hjr, hje⟩
      have hj : j < 120 := List.mem_range.mp hjr
      rw [← hje]
      have hjq : (j : ℚ) ≤ 119 := by exact_mod_cast Nat.le_of_lt_succ hj
      linarith
    have hlo : (120 : ℚ) ≤ dataMax wCloses120 := by
      apply hub
      exact List.mem_map.mpr ⟨119, List.mem_range.mpr (show 119 < 120 by norm_num),
        by norm_num⟩
    show dataMax wCloses120 = 120
    linarith
  · intro j hu
    have hj1 : j ≤ 108 := by
      have := usedByTrainSeq_le 60 7 43 j hu
      omega
    rw [wCloses120_getD j (by omega)]
    have hjq : (j : ℚ) ≤ 108 := by exact_mod_cast hj1
    linarith

/-- C3 amended: both `fit_transform` calls in `_prepare_features` see every
row of the prepared table.  Part 1: the target scaler's fitted parameters are
the minimum and maximum of the entire `Close` column, attained on arbitrary
rows.  Part 2: whenever a validation partition exists (`split_idx` below the
number of sequences, with positive window and horizon) the last row belongs
to the scalers' fit set yet to no training sequence — fitting is not
restricted to the training partition. -/
theorem C3_scalers_fit_on_all_rows :
    (∀ closes : List ℚ, closes ≠ [] →
      (∀ x ∈ closes, (prepareFeaturesTargetFit closes).1 ≤ x ∧
        x ≤ (prepareFeaturesTargetFit closes).2) ∧
      (prepareFeaturesTargetFit closes).1 ∈ closes ∧
      (prepareFeaturesTargetFit closes).2 ∈ closes) ∧
    (∀ (n seqLen horizon : Nat) (v : ℚ), 1 ≤ seqLen → 1 ≤ horizon →
      splitIndex (numSequences n seqLen horizon) v < numSequences n seqLen horizon →
      (n - 1) ∈ scalerFitRows n ∧
      ¬ usedByTrainSeq seqLen horizon
          (splitIndex (numSequences n seqLen horizon) v) (n - 1)) := by
  constructor
  · intro closes h
    cases closes with
    | nil => exact absurd rfl h
    | cons c r =>
      refine ⟨?_, ?_, ?_⟩
      · intro x hx
        rcases List.mem_cons.mp hx with rfl | hx
        · exact ⟨foldl_min_le_init r x, le_foldl_max_init r x⟩
        · exact ⟨foldl_min_le_mem r c x hx, le_foldl_max_mem r c x hx⟩
      · show r.foldl min c ∈ c :: r
        rcases foldl_min_mem r c with h1 | h1
        · rw [h1]; exact List.mem_cons_self c r
        · exact List.mem_cons_of_mem c h1
      · show r.foldl max c ∈ c :: r
        rcases foldl_max_mem r c with h1 | h1
        · rw [h1]; exact List.mem_cons_self c r
        · exact List.mem_cons_of_mem c h1
  · intro n seqLen horizon v hL hH hsplit
    have hns : numSequences n seqLen horizon = n - horizon + 1 - seqLen := rfl
    constructor
    · exact List.mem_range.mpr (by omega)
    · intro hu
      have hle := usedByTrainSeq_le seqLen horizon
        (splitIndex (numSequences n seqLen horizon) v) (n - 1) hu
      omega

theorem C3_scalers_fit_on_all_rows_witness :
    ((∀ x ∈ ([3, 7] : List ℚ), (prepareFeaturesTargetFit [3, 7]).1 ≤ x ∧
      x ≤ (prepareFeaturesTargetFit [3, 7]).2) ∧
      (prepareFeaturesTargetFit [3, 7]).1 ∈ ([3, 7] : List ℚ) ∧
      (prepareFeaturesTargetFit [3, 7]).2 ∈ ([3, 7] : List ℚ)) ∧
    ((120 - 1) ∈ scalerFitRows 120 ∧
      ¬ usedByTrainSeq 60 7 (splitIndex (numSequences 120 60 7) (1/5)) (120 - 1)) :=
  ⟨C3_scalers_fit_on_all_rows.1 [3, 7] (by simp),
   C3_scalers_fit_on_all_rows.2 120 60 7 (1/5) (by decide) (by decide)
     (by
       have h : splitIndex (numSequences 120 60 7) (1/5) = 43 := by
         show ((⌊(((120 - 7 + 1 - 60 : Nat) : ℚ)) * (1 - 1/5)⌋).toNat = 43)
         norm_num
         decide
       rw [h]
       decide)⟩

theorem ciLoop_get (vol : ℝ) : ∀ (ps : List ℝ) (k i : ℕ),
    (ciLoop vol k ps).get? i = (ps.get? i).map (fun p =>
      { lower := max 0 (p - p * vol * Real.sqrt (((k + i : ℕ) : ℝ) + 1) * 1.96)
        upper := p + p * vol * Real.sqrt (((k + i : ℕ) : ℝ) + 1) * 1.96
        confidence := max 0.2 (0.8 - ((k + i : ℕ) : ℝ) * 0.1) }) := by
  intro ps
  induction ps with
  | nil => intro k i; simp [ciLoop]
  | cons p ps ih =>
    intro k i
    cases i with
    | zero => simp [ciLoop]
    | succ i =>
      have hstep : (ciLoop vol k (p :: ps)).get? (i + 1) =
          (ciLoop vol (k + 1) ps).get? i := rfl
      rw [hstep, ih (k + 1) i, List.get?_cons_succ]
      have he : k + 1 + i = k + (i + 1) := by omega
      rw [he]

/-- C10 amended: every confidence interval has the closed form
`[max(0, p - w), p + w]` with half-width `w = p·σ·√(i+1)·1.96` (growing with
the square root of the step index and with σ), and the lower bound is
non-negative — but only non-negative: the `max` clamp can make it exactly 0. -/
theorem C10_confidence_intervals (preds closes : List ℝ) (i : ℕ) :
    (calcConfidenceIntervals preds closes).get? i = (preds.get? i).map (fun p =>
      { lower := max 0 (p - p * dailyVolatility closes * Real.sqrt ((i : ℝ) + 1) * 1.96)
        upper := p + p * dailyVolatility closes * Real.sqrt ((i : ℝ) + 1) * 1.96
        confidence := max 0.2 (0.8 - (i : ℝ) * 0.1) }) ∧
    0 ≤ (((calcConfidenceIntervals preds closes).get? i).map ConfInterval.lower).getD 0 := by
  have h := ciLoop_get (dailyVolatility closes) preds 0 i
  have h0 : ((0 + i : ℕ) : ℝ) = (i : ℝ) := by norm_num
  rw [h0] at h
  constructor
  · exact h
  · rw [calcConfidenceIntervals, h]
    cases hp : preds.get? i with
    | none => simp
    | some p => simp [le_max_left]

/-- C10 counterexample: with closes `[100, 200, 100]` the sample volatility is
`√(9/8) ≥ 1`, the half-width `100·σ·1.96` exceeds the prediction `100`, and
the returned lower bound is exactly `0` — not strictly positive. -/
theorem C10_counterexample :
    (calcConfidenceIntervals [100] [100, 200, 100]).map ConfInterval.lower = [0] := by
  have hvar : sampleVar (pctChange [100, 200, 100]) = 9 / 8 := by
    norm_num [pctChange, sampleVar, listMean]
  have hvol : (1 : ℝ) ≤ dailyVolatility [100, 200, 100] := by
    rw [dailyVolatility, hvar, Real.one_le_sqrt]
    norm_num
  have hw : (100 : ℝ) - 100 * dailyVolatility [100, 200, 100] *
      Real.sqrt (((0 : ℕ) : ℝ) + 1) * 1.96 ≤ 0 := by
    rw [show (((0 : ℕ) : ℝ) + 1) = 1 by norm_num, Real.sqrt_one]
    nlinarith [hvol]
  show [max 0 ((100 : ℝ) - 100 * dailyVolatility [100, 200, 100] *
      Real.sqrt (((0 : ℕ) : ℝ) + 1) * 1.96)] = [0]
  rw [max_eq_left hw]

theorem constrain_length (m : ℝ) :
    ∀ (ps : List ℝ) (i : ℕ) (ref : ℝ), (constrain m i ref ps).length = ps.length := by
  intro ps
  induction ps with
  | nil => intro i ref; rfl
  | cons p ps ih => intro i ref; simp [constrain, ih]

theorem constrain_head_bound (mc ref p : ℝ) (hmc : 0 ≤ mc) :
    |((if |(p - ref) / ref| > mc then ref * (1 + Real.sign ((p - ref) / ref) * mc) else p)
        - ref) / ref| ≤ mc := by
  by_cases hgt : |(p - ref) / ref| > mc
  · rw [if_pos hgt]
    by_cases href : ref = 0
    · rw [href] at hgt
      simp at hgt
      exact absurd hmc (not_le.mpr hgt)
    · have hpct : (p - ref) / ref ≠ 0 := by
        intro h0
        rw [h0] at hgt
        simp at hgt
        exact absurd hmc (not_le.mpr hgt)
      have hc : (ref * (1 + Real.sign ((p - ref) / ref) * mc) - ref) / ref =
          Real.sign ((p - ref) / ref) * mc := by
        field_simp
        ring
      rw [hc]
      rcases Real.sign_apply_eq_of_ne_zero ((p - ref) / ref) hpct with hs | hs <;>
        rw [hs] <;> simp [abs_of_nonneg hmc]
  · rw [if_neg hgt]
    exact not_lt.mp hgt

theorem maxChangeAt_nonneg (m : ℝ) (hm : 0 ≤ m) (i : ℕ) : 0 ≤ maxChangeAt m i := by
  unfold maxChangeAt
  by_cases h : i = 0
  · rw [if_pos h]; exact hm
  · rw [if_neg h]; exact mul_nonneg hm (Real.sqrt_nonneg _)

theorem maxChangeAt_le (m : ℝ) (hm : 0 ≤ m) (i : ℕ) :
    maxChangeAt m i ≤ m * Real.sqrt ((i : ℝ) + 1) := by
  unfold maxChangeAt
  by_cases h : i = 0
  · rw [if_pos h, h]
    norm_num [Real.sqrt_one]
  · rw [if_neg h]

theorem constrain_spec (m : ℝ) (hm : 0 ≤ m) :
    ∀ (ps : List ℝ) (i : ℕ) (ref : ℝ) (j : ℕ), j < ps.length →
      |((constrain m i ref ps).getD j 0 - refAt ref (constrain m i ref ps) j) /
        refAt ref (constrain m i ref ps) j| ≤
        m * Real.sqrt (((i + j : ℕ) : ℝ) + 1) ∧
      (|(ps.getD j 0 - refAt ref (constrain m i ref ps) j) /
          refAt ref (constrain m i ref ps) j| ≤ maxChangeAt m (i + j) →
        (constrain m i ref ps).getD j 0 = ps.getD j 0) := by
  intro ps
  induction ps with
  | nil => intro i ref j hj; cases hj
  | cons p ps ih =>
    intro i ref j hj
    have hout : constrain m i ref (p :: ps) =
        (if |(p - ref) / ref| > maxChangeAt m i then
          ref * (1 + Real.sign ((p - ref) / ref) * maxChangeAt m i) else p) ::
        constrain m (i + 1)
          (if |(p - ref) / ref| > maxChangeAt m i then
            ref * (1 + Real.sign ((p - ref) / ref) * maxChangeAt m i) else p) ps := by
      simp only [constrain, maxChangeAt]
    set c := if |(p - ref) / ref| > maxChangeAt m i then
        ref * (1 + Real.sign ((p - ref) / ref) * maxChangeAt m i) else p with hcdef
    cases j with
    | zero =>
      rw [hout]
      have hget : ((c :: constrain m (i + 1) c ps).getD 0 0) = c := rfl
      have href0 : refAt ref (c :: constrain m (i + 1) c ps) 0 = ref := rfl
      have hps0 : ((p :: ps).getD 0 0) = p := rfl
      rw [hget, href0, hps0, Nat.add_zero]
      constructor
      · refine (constrain_head_bound (maxChangeAt m i) ref p
          (maxChangeAt_nonneg m hm i)).trans ?_
        exact maxChangeAt_le m hm i
      · intro hle
        rw [hcdef, if_neg (not_lt.mpr hle)]
    | succ j =>
      rw [hout]
      have hj2 : j < ps.length := by simpa using hj
      obtain ⟨hb, hpass⟩ := ih (i + 1) c j hj2
      have hget : ((c :: constrain m (i + 1) c ps).getD (j + 1) 0) =
          (constrain m (i + 1) c ps).getD j 0 := rfl
      have hgetp : ((p :: ps).getD (j + 1) 0) = ps.getD j 0 := rfl
      rw [hget, hgetp, refAt_cons]
      have hnat : i + 1 + j = i + (j + 1) := by omega
      rw [hnat] at hb hpass
      exact ⟨hb, hpass⟩

theorem refPrice_eq (closes out : List ℝ) :
    ∀ j, refPrice closes out j = refAt (currentPrice closes) out j := by
  intro j
  cases j with
  | zero => simp [refPrice, refAt]
  | succ j => simp [refPrice, refAt]

/-- C4: the constrained path has the length of the raw path; each step's
percentage change from its reference (the current price for step 0, the
previous constrained prediction afterwards) is bounded by `3σ·√(i+1)`, and a
raw step already within the code's bound is passed through unchanged. -/
theorem C4_volatility_constraints (preds closes : List ℝ)
    (hlen : 2 ≤ closes.length) (hvol : 0 < dailyVolatility closes) :
    (applyVolatilityConstraints preds closes).length = preds.length ∧
    ∀ j, j < preds.length →
      |((applyVolatilityConstraints preds closes).getD j 0 -
          refPrice closes (applyVolatilityConstraints preds closes) j) /
        refPrice closes (applyVolatilityConstraints preds closes) j| ≤
        3 * dailyVolatility closes * Real.sqrt ((j : ℝ) + 1) ∧
      (|(preds.getD j 0 - refPrice closes (applyVolatilityConstraints preds closes) j) /
          refPrice closes (applyVolatilityConstraints preds closes) j| ≤
        maxChangeAt (3 * dailyVolatility closes) j →
        (applyVolatilityConstraints preds closes).getD j 0 = preds.getD j 0) := by
  have hm : 0 ≤ 3 * dailyVolatility closes := by linarith
  constructor
  · exact constrain_length _ preds 0 _
  · intro j hj
    obtain ⟨hb, hp⟩ :=
      constrain_spec (3 * dailyVolatility closes) hm preds 0 (currentPrice closes) j hj
    rw [Nat.zero_add] at hb hp
    rw [applyVolatilityConstraints, refPrice_eq]
    exact ⟨hb, hp⟩

theorem C4_volatility_constraints_witness :
    (applyVolatilityConstraints [150] [100, 102, 101]).length = ([150] : List ℝ).length ∧
    ∀ j, j < ([150] : List ℝ).length →
      |((applyVolatilityConstraints [150] [100, 102, 101]).getD j 0 -
          refPrice [100, 102, 101] (applyVolatilityConstraints [150] [100, 102, 101]) j) /
        refPrice [100, 102, 101] (applyVolatilityConstraints [150] [100, 102, 101]) j| ≤
        3 * dailyVolatility [100, 102, 101] * Real.sqrt ((j : ℝ) + 1) ∧
      (|(([150] : List ℝ).getD j 0 -
          refPrice [100, 102, 101] (applyVolatilityConstraints [150] [100, 102, 101]) j) /
          refPrice [100, 102, 101] (applyVolatilityConstraints [150] [100, 102, 101]) j| ≤
        maxChangeAt (3 * dailyVolatility [100, 102, 101]) j →
        (applyVolatilityConstraints [150] [100, 102, 101]).getD j 0 =
          ([150] : List ℝ).getD j 0) :=
  C4_volatility_constraints [150] [100, 102, 101] (by norm_num)
    (by rw [dailyVolatility, Real.sqrt_pos]
        norm_num [pctChange, sampleVar, listMean])

theorem getCol_append_of_some (t : Table) (f : String) (col : Col) (c : String) (v : Col)
    (h : getCol t c = some v) : getCol (t ++ [(f, col)]) c = some v := by
  induction t with
  | nil => cases h
  | cons e t ih =>
    obtain ⟨ec, ev⟩ := e
    simp only [getCol] at h ⊢
    by_cases hc : ec = c
    · rw [if_pos hc] at h ⊢; exact h
    · rw [if_neg hc] at h ⊢; exact ih h

theorem getCol_append_ne (t : Table) (f : String) (col : Col) (c : String)
    (hne : f ≠ c) (h : getCol t c = none) : getCol (t ++ [(f, col)]) c = none := by
  induction t with
  | nil => simp [getCol, hne]
  | cons e t ih =>
    obtain ⟨ec, ev⟩ := e
    simp only [getCol] at h ⊢
    by_cases hc : ec = c
    · rw [if_pos hc] at h; cases h
    · rw [if_neg hc] at h ⊢; exact ih h

theorem getCol_calcStep_of_some (fs : FeatureReg) (t : Table) (g c : String) (v : Col)
    (h : getCol t c = some v) : getCol (calcStep fs t g) c = some v := by
  unfold calcStep
  by_cases h1 : (getCol t g).isSome
  · rw [if_pos h1]; exact h
  · rw [if_neg h1]
    cases hreg : fs.reg g with
    | none => exact h
    | some p =>
      obtain ⟨ds, calcFn⟩ := p
      dsimp only
      by_cases h2 : ds.all (fun d => (getCol t d).isSome)
      · rw [if_pos h2]
        cases hcf : calcFn t with
        | none => exact h
        | some col => exact getCol_append_of_some t g col c v h
      · rw [if_neg h2]; exact h

theorem getCol_fold_of_some (fs : FeatureReg) (l : List String) :
    ∀ (t : Table) (c : String) (v : Col), getCol t c = some v →
      getCol (l.foldl (calcStep fs) t) c = some v := by
  induction l with
  | nil => intro t c v h; exact h
  | cons g l ih =>
    intro t c v h
    exact ih (calcStep fs t g) c v (getCol_calcStep_of_some fs t g c v h)

theorem getCol_calcStep_ne_none (fs : FeatureReg) (t : Table) (g c : String)
    (hne : g ≠ c) (h : getCol t c = none) : getCol (calcStep fs t g) c = none := by
  unfold calcStep
  by_cases h1 : (getCol t g).isSome
  · rw [if_pos h1]; exact h
  · rw [if_neg h1]
    cases hreg : fs.reg g with
    | none => exact h
    | some p =>
      obtain ⟨ds, calcFn⟩ := p
      dsimp only
      by_cases h2 : ds.all (fun d => (getCol t d).isSome)
      · rw [if_pos h2]
        cases hcf : calcFn t with
        | none => exact h
        | some col => exact getCol_append_ne t g col c hne h
      · rw [if_neg h2]; exact h

theorem getCol_fold_none (fs : FeatureReg) (l : List String) :
    ∀ (t : Table) (c : String), c ∉ l → getCol t c = none →
      getCol (l.foldl (calcStep fs) t) c = none := by
  induction l with
  | nil => intro t c _ h; exact h
  | cons g l ih =>
    intro t c hc h
    have hgc : g ≠ c := fun he => hc (he ▸ List.mem_cons_self g l)
    exact ih (calcStep fs t g) c (fun hm => hc (List.mem_cons_of_mem g hm))
      (getCol_calcStep_ne_none fs t g c hgc h)

theorem getCol_append_self (t : Table) (f : String) (col : Col)
    (h : getCol t f = none) : getCol (t ++ [(f, col)]) f = some col := by
  induction t with
  | nil => simp [getCol]
  | cons e t ih =>
    obtain ⟨ec, ev⟩ := e
    simp only [getCol] at h ⊢
    by_cases hc : ec = f
    · rw [if_pos hc] at h; cases h
    · rw [if_neg hc] at h ⊢; exact ih h

theorem calcStep_fixed (fs : FeatureReg) (L : List String) (hdl : DepLocal fs)
    (t T1 Tstar : Table) (f : String) (l : List String)
    (hT1 : T1 = calcStep fs t f) (hTs : Tstar = List.foldl (calcStep fs) T1 l)
    (hdep : ∀ d ∈ depsOf fs.depsMap f, d ∈ L → d ∈ (f :: l) → False)
    (helL : ∀ x ∈ l, x ∈ L) (hfl : f ∉ l) :
    calcStep fs Tstar f = Tstar := by
  by_cases hfSome : (getCol Tstar f).isSome
  · unfold calcStep
    rw [if_pos hfSome]
  · have hft : getCol t f = none := by
      cases hopt : getCol t f with
      | none => rfl
      | some v =>
        exfalso
        apply hfSome
        have h1 := getCol_calcStep_of_some fs t f f v hopt
        rw [← hT1] at h1
        have h2 := getCol_fold_of_some fs l T1 f v h1
        rw [← hTs] at h2
        rw [h2]
        rfl
    have hftn : ¬ (getCol t f).isSome := by rw [hft]; simp
    cases hreg : fs.reg f with
    | none =>
      unfold calcStep
      rw [if_neg hfSome, hreg]
    | some p =>
      obtain ⟨ds, calcFn⟩ := p
      have hds : depsOf fs.depsMap f = ds := by
        unfold depsOf FeatureReg.depsMap
        rw [hreg]
        rfl
      by_cases hall : ds.all (fun d => (getCol t d).isSome) = true
      · cases hcf : calcFn t with
        | some col =>
          exfalso
          apply hfSome
          have hT1f : getCol T1 f = some col := by
            rw [hT1]
            unfold calcStep
            rw [if_neg hftn, hreg]
            dsimp only
            rw [if_pos hall, hcf]
            exact getCol_append_self t f col hft
          have h2 := getCol_fold_of_some fs l T1 f col hT1f
          rw [← hTs] at h2
          rw [h2]
          rfl
        | none =>
          have hT1t : T1 = t := by
            rw [hT1]
            unfold calcStep
            rw [if_neg hftn, hreg]
            dsimp only
            rw [if_pos hall, hcf]
          have hdeq : ∀ d ∈ ds, getCol Tstar d = getCol t d := by
            intro d hd
            have hsome := List.all_eq_true.mp hall d hd
            obtain ⟨v, hv⟩ := Option.isSome_iff_exists.mp hsome
            rw [hv]
            have := getCol_fold_of_some fs l T1 d v (by rw [hT1t]; exact hv)
            rw [← hTs] at this
            exact this
          have hcfTs : calcFn Tstar = none := by
            rw [hdl f ds calcFn hreg Tstar t hdeq]
            exact hcf
          have hallTs : ds.all (fun d => (getCol Tstar d).isSome) = true := by
            rw [List.all_eq_true]
            intro d hd
            rw [hdeq d hd]
            exact List.all_eq_true.mp hall d hd
          unfold calcStep
          rw [if_neg hfSome, hreg]
          dsimp only
          rw [if_pos hallTs, hcfTs]
      · have hT1t : T1 = t := by
          rw [hT1]
          unfold calcStep
          rw [if_neg hftn, hreg]
          dsimp only
          rw [if_neg hall]
        obtain ⟨d, hd, hdn⟩ : ∃ d ∈ ds, ¬ (getCol t d).isSome = true := by
          by_contra hcon
          push_neg at hcon
          exact hall (List.all_eq_true.mpr fun d hd => hcon d hd)
        have hdnone : getCol t d = none := by
          cases hopt : getCol t d with
          | none => rfl
          | some v => exact absurd (by rw [hopt]; rfl) hdn
        have hdnotl : d ∉ l := by
          by_cases hdL : d ∈ L
          · intro hdl2
            exact hdep d (hds ▸ hd) hdL (List.mem_cons_of_mem f hdl2)
          · intro hdl2
            exact hdL (helL d hdl2)
        have hdTs : getCol Tstar d = none := by
          rw [hTs, hT1t]
          exact getCol_fold_none fs l t d hdnotl hdnone
        have hallTs : ¬ ds.all (fun d => (getCol Tstar d).isSome) = true := by
          rw [List.all_eq_true]
          push_neg
          exact ⟨d, hd, by rw [hdTs]; simp⟩
        unfold calcStep
        rw [if_neg hfSome, hreg]
        dsimp only
        rw [if_neg hallTs]

theorem run_idem (fs : FeatureReg) (L : List String) (hdl : DepLocal fs) :
    ∀ (l seen : List String) (t : Table),
      (∀ x ∈ seen, x ∉ l) → l.Nodup → (∀ x ∈ l, x ∈ L) →
      seenOrder fs.depsMap L seen l →
      List.foldl (calcStep fs) (List.foldl (calcStep fs) t l) l =
        List.foldl (calcStep fs) t l := by
  intro l
  induction l with
  | nil => intro seen t _ _ _ _; rfl
  | cons f l ih =>
    intro seen t hdisj hnd hel hord
    obtain ⟨hdep, hrest⟩ := hord
    simp only [List.foldl_cons]
    have hfl : f ∉ l := (List.nodup_cons.mp hnd).1
    have hstep : calcStep fs (List.foldl (calcStep fs) (calcStep fs t f) l) f =
        List.foldl (calcStep fs) (calcStep fs t f) l := by
      refine calcStep_fixed fs L hdl t (calcStep fs t f)
        (List.foldl (calcStep fs) (calcStep fs t f) l) f l rfl rfl ?_
        (fun x hx => hel x (List.mem_cons_of_mem f hx)) hfl
      intro d hdd hdL hdmem
      have hdseen : d ∈ seen := hdep d hdd hdL
      exact hdisj d hdseen hdmem
    rw [hstep]
    exact ih (f :: seen) (calcStep fs t f)
      (by
        intro x hx
        rcases List.mem_cons.mp hx with rfl | hx
        · exact hfl
        · exact fun hm => hdisj x hx (List.mem_cons_of_mem f hm))
      (List.nodup_cons.mp hnd).2
      (fun x hx => hel x (List.mem_cons_of_mem f hx))
      hrest

/-- C8: applying `calculate_features` a second time to its own output (same
requested list) returns the output unchanged — provided every registered
calculation reads only its declared dependency columns, as the default
registry does. -/
theorem C8_calculate_features_idempotent (fs : FeatureReg) (L : List String)
    (t t1 : Table) (hdl : DepLocal fs)
    (h : calculateFeatures fs L t = .ok t1) :
    calculateFeatures fs L t1 = .ok t1 := by
  unfold calculateFeatures at h ⊢
  cases hs : sortFeaturesByDependencies fs.depsMap L with
  | error e => rw [hs] at h; cases h
  | ok sorted =>
    rw [hs] at h
    have h1 : sorted.foldl (calcStep fs) t = t1 := Except.ok.inj h
    obtain ⟨hnd, hel, _, hord⟩ := sort_ok fs.depsMap L sorted hs
    rw [← h1]
    dsimp only
    have := run_idem fs L hdl sorted [] t (by intro x hx; cases hx) hnd hel hord
    rw [this]

theorem calcStep_self_none (fs : FeatureReg) (t : Table) (f : String)
    (ds : List String) (calcFn : Table → Option Col)
    (hreg : fs.reg f = some (ds, calcFn)) (hft : getCol t f = none)
    (hno : ds.all (fun d => (getCol t d).isSome) = true → calcFn t = none) :
    calcStep fs t f = t := by
  have hftn : ¬ (getCol t f).isSome := by rw [hft]; simp
  unfold calcStep
  rw [if_neg hftn, hreg]
  dsimp only
  by_cases hall : ds.all (fun d => (getCol t d).isSome) = true
  · rw [if_pos hall, hno hall]
  · rw [if_neg hall]

theorem fold_none_of_bad (fs : FeatureReg) (f : String) (ds : List String)
    (calcFn : Table → Option Col) (hreg : fs.reg f = some (ds, calcFn))
    (hbad : ∀ tb, calcFn tb = none) :
    ∀ (l : List String) (t : Table), getCol t f = none →
      getCol (l.foldl (calcStep fs) t) f = none := by
  intro l
  induction l with
  | nil => intro t h; exact h
  | cons g l ih =>
    intro t h
    by_cases hgf : g = f
    · subst hgf
      rw [List.foldl_cons, calcStep_self_none fs t g ds calcFn hreg h (fun _ => hbad t)]
      exact ih t h
    · rw [List.foldl_cons]
      exact ih (calcStep fs t g) (getCol_calcStep_ne_none fs t g f hgf h)

theorem fold_none_of_missing_dep (fs : FeatureReg) (f : String) (ds : List String)
    (calcFn : Table → Option Col) (d : String)
    (hreg : fs.reg f = some (ds, calcFn)) (hd : d ∈ ds) :
    ∀ (l : List String) (t : Table), getCol t f = none → getCol t d = none →
      d ∉ l → getCol (l.foldl (calcStep fs) t) f = none := by
  intro l
  induction l with
  | nil => intro t hf _ _; exact hf
  | cons g l ih =>
    intro t hf hdn hdl
    have hgd : g ≠ d := fun he => hdl (he ▸ List.mem_cons_self g l)
    have hdl2 : d ∉ l := fun hm => hdl (List.mem_cons_of_mem g hm)
    by_cases hgf : g = f
    · subst hgf
      have hstep : calcStep fs t g = t := by
        refine calcStep_self_none fs t g ds calcFn hreg hf (fun hall => ?_)
        exfalso
        have := List.all_eq_true.mp hall d hd
        rw [hdn] at this
        cases this
      rw [List.foldl_cons, hstep]
      exact ih t hf hdn hdl2
    · rw [List.foldl_cons]
      exact ih (calcStep fs t g) (getCol_calcStep_ne_none fs t g f hgf hf)
        (getCol_calcStep_ne_none fs t g d hgd hdn) hdl2

theorem fold_isSome_of_some (fs : FeatureReg) (l : List String) (t : Table)
    (c : String) (h : (getCol t c).isSome) :
    (getCol (l.foldl (calcStep fs) t) c).isSome := by
  obtain ⟨v, hv⟩ := Option.isSome_iff_exists.mp h
  rw [getCol_fold_of_some fs l t c v hv]
  rfl

theorem fold_some_of_good (fs : FeatureReg) (f : String) (ds : List String)
    (calcFn : Table → Option Col) (hreg : fs.reg f = some (ds, calcFn))
    (htotal : ∀ tb, (calcFn tb).isSome)
    (l : List String) (hf : f ∈ l) (t : Table)
    (hdeps : ∀ d ∈ ds, (getCol t d).isSome) :
    (getCol (l.foldl (calcStep fs) t) f).isSome := by
  obtain ⟨l1, l2, rfl⟩ := List.append_of_mem hf
  rw [List.foldl_append, List.foldl_cons]
  have hdeps1 : ∀ d ∈ ds, (getCol (l1.foldl (calcStep fs) t) d).isSome :=
    fun d hd => fold_isSome_of_some fs l1 t d (hdeps d hd)
  set T1 := l1.foldl (calcStep fs) t with hT1
  have hstep : (getCol (calcStep fs T1 f) f).isSome := by
    by_cases hfs : (getCol T1 f).isSome
    · unfold calcStep
      rw [if_pos hfs]
      exact hfs
    · have hftn : getCol T1 f = none := by
        cases hopt : getCol T1 f with
        | none => rfl
        | some v => exact absurd (by rw [hopt]; rfl) hfs
      have hall : ds.all (fun d => (getCol T1 d).isSome) = true :=
        List.all_eq_true.mpr fun d hd => hdeps1 d hd
      obtain ⟨c, hc⟩ := Option.isSome_iff_exists.mp (htotal T1)
      unfold calcStep
      rw [if_neg hfs, hreg]
      dsimp only
      rw [if_pos hall, hc]
      rw [getCol_append_self T1 f c hftn]
      rfl
  exact fold_isSome_of_some fs l2 (calcStep fs T1 f) f hstep

/-- C9: with an acyclic requested list `calculate_features` never raises; a
requested feature whose calculation always fails, or one of whose
dependencies is neither requested nor a column, is simply absent from the
output; every requested feature whose dependencies are input columns and
whose calculation succeeds appears; and no existing column is lost or
changed. -/
theorem C9_calculate_features_fail_soft (fs : FeatureReg) (L : List String)
    (t : Table) (r : String → Nat) (hr : RankOK fs.depsMap L r) :
    ∃ t2, calculateFeatures fs L t = .ok t2 ∧
      (∀ f ds calcFn, f ∈ L → getCol t f = none → fs.reg f = some (ds, calcFn) →
        (∀ tb, calcFn tb = none) → getCol t2 f = none) ∧
      (∀ f ds calcFn, f ∈ L → getCol t f = none → fs.reg f = some (ds, calcFn) →
        (∃ d ∈ ds, d ∉ L ∧ getCol t d = none) → getCol t2 f = none) ∧
      (∀ f ds calcFn, f ∈ L → fs.reg f = some (ds, calcFn) →
        (∀ d ∈ ds, (getCol t d).isSome) → (∀ tb, (calcFn tb).isSome) →
        (getCol t2 f).isSome) ∧
      (∀ c v, getCol t c = some v → getCol t2 c = some v) := by
  obtain ⟨sorted, hs⟩ := sort_total fs.depsMap L r hr
  obtain ⟨hnd, hel, hcover, hord⟩ := sort_ok fs.depsMap L sorted hs
  refine ⟨sorted.foldl (calcStep fs) t, ?_, ?_, ?_, ?_, ?_⟩
  · unfold calculateFeatures
    rw [hs]
  · intro f ds calcFn _ hft hreg hbad
    exact fold_none_of_bad fs f ds calcFn hreg hbad sorted t hft
  · intro f ds calcFn _ hft hreg ⟨d, hd, hdL, hdn⟩
    exact fold_none_of_missing_dep fs f ds calcFn d hreg hd sorted t hft hdn
      (fun hm => hdL (hel d hm))
  · intro f ds calcFn hfL hreg hdeps htotal
    exact fold_some_of_good fs f ds calcFn hreg htotal sorted (hcover f hfL) t hdeps
  · intro c v hv
    exact getCol_fold_of_some fs sorted t c v hv

theorem wCalcReg_depLocal : DepLocal wCalcReg := by
  intro f ds calcFn h t1 t2 hag
  by_cases h1 : f = "EMA_12"
  · rw [wCalcReg] at h
    simp only [h1, if_pos] at h
    have h2 := Option.some.inj h
    injection h2 with hd hc
    rw [← hc]
    exact hag "Close" (hd ▸ List.mem_cons_self _ _)
  · by_cases h2 : f = "MACD"
    · rw [wCalcReg] at h
      simp only [h1, h2, if_neg, if_pos, ite_false, ite_true] at h
      have h3 := Option.some.inj h
      injection h3 with hd hc
      rw [← hc]
      exact hag "EMA_12" (hd ▸ List.mem_cons_self _ _)
    · rw [wCalcReg] at h
      simp only [h1, h2, ite_false] at h
      cases h

theorem C8_calculate_features_idempotent_witness :
    calculateFeatures wCalcReg ["MACD", "EMA_12"]
      [("Close", [1, 2]), ("EMA_12", [1, 2]), ("MACD", [1, 2])] =
      .ok [("Close", [1, 2]), ("EMA_12", [1, 2]), ("MACD", [1, 2])] :=
  C8_calculate_features_idempotent wCalcReg ["MACD", "EMA_12"]
    [("Close", [1, 2])] [("Close", [1, 2]), ("EMA_12", [1, 2]), ("MACD", [1, 2])]
    wCalcReg_depLocal (by decide)

theorem C9_calculate_features_fail_soft_witness :
    ∃ t2, calculateFeatures wBadReg ["Good", "Bad"] [("Close", [1, 2])] = .ok t2 ∧
      (∀ f ds calcFn, f ∈ ["Good", "Bad"] → getCol [("Close", [1, 2])] f = none →
        wBadReg.reg f = some (ds, calcFn) →
        (∀ tb, calcFn tb = none) → getCol t2 f = none) ∧
      (∀ f ds calcFn, f ∈ ["Good", "Bad"] → getCol [("Close", [1, 2])] f = none →
        wBadReg.reg f = some (ds, calcFn) →
        (∃ d ∈ ds, d ∉ ["Good", "Bad"] ∧ getCol [("Close", [1, 2])] d = none) →
        getCol t2 f = none) ∧
      (∀ f ds calcFn, f ∈ ["Good", "Bad"] → wBadReg.reg f = some (ds, calcFn) →
        (∀ d ∈ ds, (getCol [("Close", [1, 2])] d).isSome) →
        (∀ tb, (calcFn tb).isSome) → (getCol t2 f).isSome) ∧
      (∀ c v, getCol [("Close", [1, 2])] c = some v → getCol t2 c = some v) :=
  C9_calculate_features_fail_soft wBadReg ["Good", "Bad"] [("Close", [1, 2])]
    (fun _ => 0) (by decide)

end StockTracker
